import Mathlib

set_option maxRecDepth 8192

/-!
Verification of the resilient transfer and reconciliation engine of c3dl
(src/c3dl.py) against its specification.

Strings are modelled as lists of Unicode code points (List Nat), byte strings
as lists of byte values (List Nat, each below 256).  Filesystem directories
are modelled as optional lists of entries (none = the directory does not
exist).  The similarity metric of difflib.SequenceMatcher and the HTTP layer
are external collaborators of the repository; they enter the model as
parameters (a function argument for the metric, a Response record per
attempt for the HTTP layer).

Size tolerance comparisons: the source compares actual < expected * 0.99
with a binary float literal 0.99; the model uses the exact rational
comparison 100 * actual < 99 * expected, which is the stated 99 percent
tolerance.
-/

/-! ## Character classes (Python re and str semantics, Latin repertoire)

The source applies regular expressions and str methods to titles from a
media feed; the model fixes their character classes as follows.  The
whitespace set is the CPython Py_UNICODE_ISSPACE set, used both by the
regex class for whitespace and by str.split and str.strip.  The word class
of the regex is modelled as the ASCII alphanumerics plus underscore; the
non-ASCII letters the source regex would also keep are covered for the
Latin repertoire by the explicit 0xC0-0x17F range alternative of the same
character class in the source.  Digits are ASCII digits. -/

def isSpaceChar (c : Nat) : Bool :=
  decide ((9 ≤ c ∧ c ≤ 13) ∨ (28 ≤ c ∧ c ≤ 31) ∨ c = 32 ∨ c = 133 ∨ c = 160 ∨
    c = 5760 ∨ (8192 ≤ c ∧ c ≤ 8202) ∨ c = 8232 ∨ c = 8233 ∨ c = 8239 ∨
    c = 8287 ∨ c = 12288)

def isDigitChar (c : Nat) : Bool :=
  decide (48 ≤ c ∧ c ≤ 57)

def isWordChar (c : Nat) : Bool :=
  decide ((48 ≤ c ∧ c ≤ 57) ∨ (65 ≤ c ∧ c ≤ 90) ∨ (97 ≤ c ∧ c ≤ 122) ∨ c = 95)

/-- Separator characters replaced by a space in normalize_title:
underscore, hyphen-minus, en dash, em dash. -/
def isSepChar (c : Nat) : Bool :=
  decide (c = 95 ∨ c = 45 ∨ c = 8211 ∨ c = 8212)

/-- Characters kept by the character filter of normalize_title: the regex
keeps word characters, whitespace, and the range U+00C0 to U+017F. -/
def keepChar (c : Nat) : Bool :=
  isWordChar c || isSpaceChar c || decide (192 ≤ c ∧ c ≤ 383)

/-- Modelling str.lower: simple lowercase mappings for Basic Latin,
Latin-1 Supplement and Latin Extended-A, plus the single expanding
lowercase mapping of Unicode SpecialCasing, U+0130 to U+0069 U+0307
(CPython uses the full case mappings, so lowering can grow a string);
identity elsewhere.  Returns the list of code points the character
lowers to. -/
def lowerChar (c : Nat) : List Nat :=
  if 65 ≤ c ∧ c ≤ 90 then [c + 32]
  else if 192 ≤ c ∧ c ≤ 222 ∧ c ≠ 215 then [c + 32]
  else if c = 304 then [105, 775]
  else if 256 ≤ c ∧ c ≤ 311 ∧ c % 2 = 0 then [c + 1]
  else if 313 ≤ c ∧ c ≤ 328 ∧ c % 2 = 1 then [c + 1]
  else if 330 ≤ c ∧ c ≤ 375 ∧ c % 2 = 0 then [c + 1]
  else if c = 376 then [255]
  else if 377 ≤ c ∧ c ≤ 382 ∧ c % 2 = 1 then [c + 1]
  else [c]

/-- str.lower over a whole string. -/
def lowerStr (s : List Nat) : List Nat :=
  s.flatMap lowerChar

/-- A character on which one pass of the normalizer pipeline acts as the
identity: kept by the character filter, not whitespace, not a separator,
and a fixed point of lowercasing.  The output of normalize_title consists
of such characters and single interior spaces - except that lowercasing
U+0130 emits U+0307, which is not kept. -/
def stableChar (c : Nat) : Prop :=
  keepChar c = true ∧ isSpaceChar c = false ∧ isSepChar c = false ∧
    lowerChar c = [c]

instance (c : Nat) : Decidable (stableChar c) := by
  unfold stableChar; infer_instance

/-! ## pathlib name and stem

Path(filename).stem first takes the final path component (empty and
single-dot components are dropped when the path is parsed), then removes
the last extension: with i the index of the last dot, the stem is the part
before i when 0 < i < length - 1, else the whole name. -/

def splitSlashGo : List Nat → List Nat → List (List Nat)
  | acc, [] => [acc.reverse]
  | acc, c :: rest =>
    if c = 47 then acc.reverse :: splitSlashGo [] rest
    else splitSlashGo (c :: acc) rest

/-- Final path component as pathlib computes it: split on slashes, drop
empty and single-dot components, take the last component. -/
def pathName (s : List Nat) : List Nat :=
  (((splitSlashGo [] s).filter (fun comp => comp ≠ [] ∧ comp ≠ [46])).getLast?).getD []

/-- Path(...).stem: the final component without its last extension. -/
def pathStem (s : List Nat) : List Nat :=
  let nm := pathName s
  match nm.reverse.findIdx? (fun c => decide (c = 46)) with
  | none => nm
  | some j =>
    let i := nm.length - 1 - j
    if 0 < i ∧ i < nm.length - 1 then nm.take i else nm

/-- Path(...).suffix: the last extension of the final component including
the dot, empty when there is none. -/
def pathSuffix (s : List Nat) : List Nat :=
  let nm := pathName s
  match nm.reverse.findIdx? (fun c => decide (c = 46)) with
  | none => []
  | some j =>
    let i := nm.length - 1 - j
    if 0 < i ∧ i < nm.length - 1 then nm.drop i else []

/-! ## normalize_title -/

/-- One congress-tag match of the regex for optional whitespace, an opening
parenthesis, two digits, the letter c (case-insensitive), one digit, a
closing parenthesis, optional whitespace - at the head of the list.  The
leading greedy whitespace run never backtracks because whitespace and the
opening parenthesis are disjoint.  Returns the remainder after the match,
or none when no match starts here. -/
def tagMatch (l : List Nat) : Option (List Nat) :=
  match l.dropWhile isSpaceChar with
  | c0 :: d1 :: d2 :: cc :: d3 :: c5 :: rest =>
    if c0 = 40 ∧ isDigitChar d1 ∧ isDigitChar d2 ∧ (cc = 99 ∨ cc = 67) ∧
        isDigitChar d3 ∧ c5 = 41 then
      some (rest.dropWhile isSpaceChar)
    else none
  | _ => none

/-- re.sub of the congress-tag pattern with the empty string: scan left to
right, at each position either take the match starting there or emit the
character and move on.  Fuel-indexed for structural recursion; the fuel is
the input length, which always suffices because a match consumes at least
six characters. -/
def removeTagsGo : Nat → List Nat → List Nat
  | 0, l => l
  | _ + 1, [] => []
  | fuel + 1, c :: rest =>
    match tagMatch (c :: rest) with
    | some rem => removeTagsGo fuel rem
    | none => c :: removeTagsGo fuel rest

def removeTags (l : List Nat) : List Nat :=
  removeTagsGo l.length l

/-- str.split with no argument: the maximal whitespace-free words, in
order.  Accumulator-passing so the recursion is structural. -/
def splitWsGo : List Nat → List Nat → List (List Nat)
  | acc, [] => if acc = [] then [] else [acc.reverse]
  | acc, c :: rest =>
    if isSpaceChar c then
      if acc = [] then splitWsGo [] rest else acc.reverse :: splitWsGo [] rest
    else splitWsGo (c :: acc) rest

def splitWs (l : List Nat) : List (List Nat) :=
  splitWsGo [] l

/-- Join a list of words with single spaces. -/
def joinWords : List (List Nat) → List Nat
  | [] => []
  | [w] => w
  | w :: ws => w ++ 32 :: joinWords ws

/-- The whitespace normalization of the source: a space-join of str.split. -/
def wsCollapse (l : List Nat) : List Nat :=
  joinWords (splitWs l)

/-- str.strip: remove leading and trailing whitespace. -/
def stripEnds (l : List Nat) : List Nat :=
  ((l.dropWhile isSpaceChar).reverse.dropWhile isSpaceChar).reverse

/-- normalize_title from the source: strip the extension, remove congress
tags, replace separators with spaces, drop characters outside the kept
classes, collapse whitespace, lowercase and strip. -/
def normalize_title (filename : List Nat) : List Nat :=
  let name := pathStem filename
  let name := removeTags name
  let name := name.map (fun c => if isSepChar c then 32 else c)
  let name := name.filter keepChar
  let name := wsCollapse name
  stripEnds (lowerStr name)

/-! ## UTF-8 encoding and decoding

The sanitizer truncates on the UTF-8 byte string of the name.  Encoding is
the standard one for Unicode scalar values; decoding with errors equal to
ignore skips bytes that start no canonical sequence (overlong forms,
surrogates and out-of-range leaders are rejected, as CPython does). -/

/-- A Unicode scalar value: what a Python str holds and utf-8 can encode
(code point below 0x110000 and not a surrogate). -/
def validScalar (c : Nat) : Prop :=
  c < 1114112 ∧ ¬(55296 ≤ c ∧ c < 57344)

instance (c : Nat) : Decidable (validScalar c) := by
  unfold validScalar; infer_instance

def utf8EncodeChar (c : Nat) : List Nat :=
  if c < 128 then [c]
  else if c < 2048 then [192 + c / 64, 128 + c % 64]
  else if c < 65536 then [224 + c / 4096, 128 + c / 64 % 64, 128 + c % 64]
  else [240 + c / 262144, 128 + c / 4096 % 64, 128 + c / 64 % 64, 128 + c % 64]

def utf8Encode (cs : List Nat) : List Nat :=
  cs.flatMap utf8EncodeChar

/-- A UTF-8 continuation byte: top two bits 10, that is b & 0xC0 == 0x80. -/
def isCont (b : Nat) : Bool :=
  decide (128 ≤ b ∧ b < 192)

/-- The while loop of the sanitizer: drop trailing continuation bytes. -/
def stripContRight (bs : List Nat) : List Nat :=
  (bs.reverse.dropWhile isCont).reverse

/-- bytes.decode with errors equal to ignore, fuel-indexed for structural
recursion (the fuel is the byte count, which always suffices): decode
canonical sequences, skip bytes that start none (one byte at a time; on
the inputs the sanitizer produces, only a single trailing truncated
sequence can occur, on which this agrees with CPython).  Overlong forms,
surrogates and out-of-range leaders are rejected, as CPython does. -/
def decodeIgnoreGo : Nat → List Nat → List Nat
  | 0, _ => []
  | _ + 1, [] => []
  | fuel + 1, b :: bs =>
    if b < 128 then b :: decodeIgnoreGo fuel bs
    else if b < 194 then decodeIgnoreGo fuel bs
    else if b < 224 then
      match bs with
      | b1 :: bs1 =>
        if 128 ≤ b1 ∧ b1 < 192 then
          ((b - 192) * 64 + (b1 - 128)) :: decodeIgnoreGo fuel bs1
        else decodeIgnoreGo fuel bs
      | [] => []
    else if b < 240 then
      match bs with
      | b1 :: b2 :: bs2 =>
        if (128 ≤ b1 ∧ b1 < 192) ∧ (128 ≤ b2 ∧ b2 < 192) ∧
            (b = 224 → 160 ≤ b1) ∧ (b = 237 → b1 < 160) then
          ((b - 224) * 4096 + (b1 - 128) * 64 + (b2 - 128)) :: decodeIgnoreGo fuel bs2
        else decodeIgnoreGo fuel bs
      | _ => decodeIgnoreGo fuel bs
    else if b < 245 then
      match bs with
      | b1 :: b2 :: b3 :: bs3 =>
        if (128 ≤ b1 ∧ b1 < 192) ∧ (128 ≤ b2 ∧ b2 < 192) ∧ (128 ≤ b3 ∧ b3 < 192) ∧
            (b = 240 → 144 ≤ b1) ∧ (b = 244 → b1 < 144) then
          ((b - 240) * 262144 + (b1 - 128) * 4096 + (b2 - 128) * 64 + (b3 - 128)) ::
            decodeIgnoreGo fuel bs3
        else decodeIgnoreGo fuel bs
      | _ => decodeIgnoreGo fuel bs
    else decodeIgnoreGo fuel bs

def decodeIgnore (bs : List Nat) : List Nat :=
  decodeIgnoreGo bs.length bs

/-! ## sanitize_filename -/

/-- The characters the sanitizer replaces with an underscore.  The source
character class is a raw-string regex whose backslash-slash is an escaped
forward slash, so the set is slash, colon, asterisk, question mark, double
quote, less-than, greater-than, vertical bar - the backslash itself is not
in the set. -/
def replaceInvalidChar (c : Nat) : Nat :=
  if c = 47 ∨ c = 58 ∨ c = 42 ∨ c = 63 ∨ c = 34 ∨ c = 60 ∨ c = 62 ∨ c = 124
  then 95 else c

/-- Python slice bs[:k] for an Int bound: a negative bound counts from the
end of the list. -/
def pySliceTo (bs : List Nat) (k : Int) : List Nat :=
  if 0 ≤ k then bs.take k.toNat else bs.take (bs.length - (-k).toNat)

/-- sanitize_filename from the source: replace invalid characters, and when
the UTF-8 length of the name exceeds the byte budget left by the
extension, cut the byte string three bytes short of the budget, drop
trailing continuation bytes, decode ignoring the possible orphan leader,
and append an ellipsis; finally append the extension. -/
def sanitize_filename (title ext : List Nat) (maxBytes : Nat) : List Nat :=
  let filename := title.map replaceInvalidChar
  let availableBytes : Int := (maxBytes : Int) - (utf8Encode ext).length
  let encoded := utf8Encode filename
  let filename :=
    if (encoded.length : Int) > availableBytes then
      decodeIgnore (stripContRight (pySliceTo encoded (availableBytes - 3))) ++
        [46, 46, 46]
    else filename
  filename ++ ext

/-! ## Resumable transfer engine (download_file)

One HTTP attempt is modelled by a Response record.  connectError true
means the attempt raises before the part file is opened (requests.get
fails, or a header value such as a Content-Range total does not parse as
an integer).  contentRangeTotal is the total parsed from a Content-Range
header that contains a slash; contentLength the parsed content-length
header (absent defaults to zero, as in the source).  The body is the
streamed byte list. -/

structure Response where
  status : Nat
  contentRangeTotal : Option Nat
  contentLength : Option Nat
  body : List Nat
  connectError : Bool
deriving DecidableEq, Repr

/-- The resume probe at the top of each attempt: when a .part file exists,
its byte length is the resume position, a Range header is sent from it and
the file is opened for append; else a fresh full request in write mode.
Returns (resume position, Range header offset, append mode). -/
def probeResume (part : Option (List Nat)) : Nat × Option Nat × Bool :=
  match part with
  | some bs => (bs.length, some bs.length, true)
  | none => (0, none, false)

/-- Response interpretation and streaming of one attempt: on 206 the total
comes from the Content-Range total when present, else resume position plus
content-length, and the body is appended; on 200 the total is the
content-length, and a nonzero resume position is discarded with the part
file rewritten from scratch; other statuses (and connection errors) raise.
Returns the new part-file content and the learned total, or none when the
attempt raises. -/
def attemptWrite (part : Option (List Nat)) (resp : Response) :
    Option (List Nat × Nat) :=
  let probe := probeResume part
  let resumePos := probe.1
  let appendMode := probe.2.2
  if resp.connectError then none
  else if resp.status = 206 then
    let total :=
      match resp.contentRangeTotal with
      | some t => t
      | none => resumePos + resp.contentLength.getD 0
    some ((if appendMode then part.getD [] else []) ++ resp.body, total)
  else if resp.status = 200 then
    let total := resp.contentLength.getD 0
    if 0 < resumePos then some (resp.body, total)
    else some ((if appendMode then part.getD [] else []) ++ resp.body, total)
  else none

inductive AttemptOutcome where
  | success (content : List Nat)
  | verifyFail (newPart : Option (List Nat))
  | failed (part : Option (List Nat))
deriving DecidableEq, Repr

/-- One full attempt: stream, then verify the part size against the
expected size when positive, else against the learned total, with the
99 percent tolerance.  Acceptance renames the part file; a verification
failure keeps the part file and falls through; an exception keeps the
part file unchanged. -/
def runAttempt (part : Option (List Nat)) (expectedSize : Nat)
    (resp : Response) : AttemptOutcome :=
  match attemptWrite part resp with
  | none => .failed part
  | some (newPart, totalSize) =>
    let checkSize := if 0 < expectedSize then expectedSize else totalSize
    if 0 < checkSize ∧ 100 * newPart.length < 99 * checkSize then
      .verifyFail (some newPart)
    else .success newPart

structure DLResult where
  succeeded : Bool
  finalFile : Option (List Nat)
  partFile : Option (List Nat)
  waited : Nat
  attempts : Nat
deriving DecidableEq, Repr

/-- The retry loop of download_file: one response per attempt; on success
return at once; on a verification failure continue with the kept part file
and no wait; on an exception wait 5 * 2 ^ attempt seconds unless this was
the last attempt, then continue.  Exhaustion returns failure with the part
file kept. -/
def downloadGo (expectedSize maxRetries : Nat) :
    List Response → Nat → Option (List Nat) → DLResult
  | [], _, part => ⟨false, none, part, 0, 0⟩
  | r :: rest, attempt, part =>
    match runAttempt part expectedSize r with
    | .success c => ⟨true, some c, none, 0, 1⟩
    | .verifyFail p =>
      let res := downloadGo expectedSize maxRetries rest (attempt + 1) p
      ⟨res.succeeded, res.finalFile, res.partFile, res.waited, res.attempts + 1⟩
    | .failed p =>
      let w := if attempt < maxRetries - 1 then 2 ^ attempt * 5 else 0
      let res := downloadGo expectedSize maxRetries rest (attempt + 1) p
      ⟨res.succeeded, res.finalFile, res.partFile, w + res.waited, res.attempts + 1⟩

/-- download_file: run up to maxRetries attempts against the listed
responses, starting from the given part file. -/
def download_file (resps : List Response) (expectedSize maxRetries : Nat)
    (part : Option (List Nat)) : DLResult :=
  downloadGo expectedSize maxRetries (resps.take maxRetries) 0 part

/-- A response on which an attempt raises before anything is written:
either the request itself fails, or the status is neither 206 nor 200
(raise_for_status fires inside the try block). -/
def isErrorResp (r : Response) : Prop :=
  r.connectError = true ∨ (r.status ≠ 206 ∧ r.status ≠ 200)

/-! ## Similarity matcher (find_matching_release) -/

structure DirEntry where
  name : List Nat
  isFile : Bool
deriving DecidableEq, Repr

/-- The extensions the matcher accepts, after lowercasing the suffix. -/
def allowedSuffixes : List (List Nat) :=
  [[46, 109, 112, 52], [46, 119, 101, 98, 109], [46, 109, 112, 51],
   [46, 111, 112, 117, 115]]

/-- The loop of find_matching_release: skip non-files and files with a
disallowed lowered suffix, return the first file whose similarity with the
candidate, both normalized, reaches the threshold.  The similarity metric
(difflib.SequenceMatcher ratio, an external collaborator) is the
parameter sim. -/
def findMatchLoop (sim : List Nat → List Nat → ℚ) (normalizedRelive : List Nat)
    (threshold : ℚ) : List DirEntry → Option DirEntry
  | [] => none
  | f :: rest =>
    if f.isFile = false then findMatchLoop sim normalizedRelive threshold rest
    else if (lowerStr (pathSuffix f.name)) ∉ allowedSuffixes then
      findMatchLoop sim normalizedRelive threshold rest
    else if threshold ≤ sim normalizedRelive (normalize_title f.name) then some f
    else findMatchLoop sim normalizedRelive threshold rest

/-- find_matching_release: none when the directory does not exist, else the
first eligible file at or above the threshold. -/
def find_matching_release (sim : List Nat → List Nat → ℚ) (reliveTitle : List Nat)
    (releasesDir : Option (List DirEntry)) (threshold : ℚ) : Option DirEntry :=
  match releasesDir with
  | none => none
  | some entries => findMatchLoop sim (normalize_title reliveTitle) threshold entries

/-! ## Cleanup pass (cleanup_relive_duplicates) -/

/-- Does a name match the glob *.mp4. -/
def isMp4Name (name : List Nat) : Bool :=
  List.isSuffixOf [46, 109, 112, 52] name

/-- The loop of the cleanup pass over the snapshot of *.mp4 relive files:
delete (drop) each one for which the matcher finds a release at the
default threshold 0.85, count the removals.  Returns the remaining relive
names and the count. -/
def cleanupLoop (sim : List Nat → List Nat → ℚ) (releases : List DirEntry) :
    List (List Nat) → List (List Nat) × Nat
  | [] => ([], 0)
  | f :: rest =>
    let res := cleanupLoop sim releases rest
    if isMp4Name f &&
        (find_matching_release sim f (some releases) (85 / 100)).isSome then
      (res.1, res.2 + 1)
    else (f :: res.1, res.2)

/-- cleanup_relive_duplicates: zero removals when either directory is
missing, else the loop above.  Returns the relive directory afterwards and
the number removed. -/
def cleanup_relive_duplicates (sim : List Nat → List Nat → ℚ)
    (reliveDir : Option (List (List Nat))) (releasesDir : Option (List DirEntry)) :
    Option (List (List Nat)) × Nat :=
  match reliveDir, releasesDir with
  | some rl, some rel =>
    let res := cleanupLoop sim rel rl
    (some res.1, res.2)
  | rl, _ => (rl, 0)

/-! ## Canonical-set reconciliation (download_releases) -/

/-- One listed feed item as the reconciliation loop sees it: whether a
final file already exists at the target path, its size, and the declared
size from the feed. -/
structure RelItem where
  existsFinal : Bool
  actualSize : Nat
  size : Nat
deriving DecidableEq, Repr

/-- Aggregate reconciliation state: counters, the final files deleted as
incomplete, and the queue of items passed on to the transfer engine. -/
structure RecState where
  alreadyHave : Nat
  incomplete : Nat
  deleted : List RelItem
  pending : List RelItem
deriving DecidableEq, Repr

/-- The per-item body of the download_releases listing loop: an existing
final file that is short of 99 percent of a positive declared size is
deleted and the item re-queued as incomplete; an existing file otherwise
counts as already-have and is skipped; a missing file queues the item. -/
def releaseStep (s : RecState) (it : RelItem) : RecState :=
  if it.existsFinal then
    if 0 < it.size ∧ 100 * it.actualSize < 99 * it.size then
      ⟨s.alreadyHave, s.incomplete + 1, s.deleted ++ [it], s.pending ++ [it]⟩
    else ⟨s.alreadyHave + 1, s.incomplete, s.deleted, s.pending⟩
  else ⟨s.alreadyHave, s.incomplete, s.deleted, s.pending ++ [it]⟩

/-- The listing phase of download_releases over all items; the items in
pending are then each passed to download_file in order. -/
def download_releases (items : List RelItem) : RecState :=
  items.foldl releaseStep ⟨0, 0, [], []⟩

/-! # Theorems

Helper lemmas first, then one theorem per claim (with a witness where the
theorem carries hypotheses). -/

/-! ## Transfer engine -/

theorem attemptWrite_of_isErrorResp (part : Option (List Nat)) (r : Response)
    (h : isErrorResp r) : attemptWrite part r = none := by
  rcases h with h | ⟨h1, h2⟩
  · simp [attemptWrite, h]
  · unfold attemptWrite
    split
    · rfl
    · simp [h1, h2]

theorem runAttempt_of_isErrorResp (part : Option (List Nat)) (e : Nat)
    (r : Response) (h : isErrorResp r) : runAttempt part e r = .failed part := by
  simp [runAttempt, attemptWrite_of_isErrorResp part r h]

/-- C1: per attempt, an existing .part file's byte length is the resume
offset and the Range header is sent from it; a 206 response appends the
body to the existing part file with the total taken from the Content-Range
total when present, else resume offset plus content-length; a 200 response
with a nonzero resume offset discards the offset and rewrites the part
file from scratch with the total taken from content-length. -/
theorem c1_resume_probe_and_response (bs : List Nat) (resp : Response)
    (hconn : resp.connectError = false) :
    probeResume (some bs) = (bs.length, some bs.length, true) ∧
    (resp.status = 206 →
      attemptWrite (some bs) resp = some (bs ++ resp.body,
        match resp.contentRangeTotal with
        | some t => t
        | none => bs.length + resp.contentLength.getD 0)) ∧
    (resp.status = 200 → 0 < bs.length →
      attemptWrite (some bs) resp = some (resp.body, resp.contentLength.getD 0)) := by
  refine ⟨rfl, ?_, ?_⟩
  · intro h206
    simp [attemptWrite, probeResume, hconn, h206]
  · intro h200 hlen
    simp [attemptWrite, probeResume, hconn, h200, hlen]

theorem c1_resume_probe_and_response_witness :
    probeResume (some [1, 2]) = (2, some 2, true) ∧
    attemptWrite (some [1, 2]) ⟨206, some 10, some 3, [5, 6], false⟩ =
      some ([1, 2, 5, 6], 10) ∧
    attemptWrite (some [1, 2]) ⟨200, none, some 4, [5, 6], false⟩ =
      some ([5, 6], 4) := by
  refine ⟨(c1_resume_probe_and_response [1, 2] ⟨206, some 10, some 3, [5, 6], false⟩ rfl).1,
    ?_, ?_⟩
  · have h := (c1_resume_probe_and_response [1, 2]
      ⟨206, some 10, some 3, [5, 6], false⟩ rfl).2.1 rfl
    simpa using h
  · have h := (c1_resume_probe_and_response [1, 2]
      ⟨200, none, some 4, [5, 6], false⟩ rfl).2.2 rfl (by decide)
    simpa using h

/-- C3: after an attempt's stream completes with content c and learned
total, the verification reference is expectedSizeBytes when positive, else
the learned total; the attempt accepts exactly when the actual size is at
least 99 percent of that reference, in which case the part file is renamed
to the final path and the call returns true; on a verification failure the
part file is kept (not deleted) and the loop falls through to the next
attempt. -/
theorem c3_verify_and_finalize (part : Option (List Nat)) (e : Nat)
    (resp : Response) (c : List Nat) (total : Nat)
    (h : attemptWrite part resp = some (c, total)) :
    ((runAttempt part e resp = .success c) ↔
      99 * (if 0 < e then e else total) ≤ 100 * c.length) ∧
    (100 * c.length < 99 * (if 0 < e then e else total) →
      runAttempt part e resp = .verifyFail (some c)) ∧
    (∀ maxR rest attempt, runAttempt part e resp = .success c →
      downloadGo e maxR (resp :: rest) attempt part = ⟨true, some c, none, 0, 1⟩) ∧
    (∀ maxR rest attempt p, runAttempt part e resp = .verifyFail p →
      downloadGo e maxR (resp :: rest) attempt part =
        ⟨(downloadGo e maxR rest (attempt + 1) p).succeeded,
         (downloadGo e maxR rest (attempt + 1) p).finalFile,
         (downloadGo e maxR rest (attempt + 1) p).partFile,
         (downloadGo e maxR rest (attempt + 1) p).waited,
         (downloadGo e maxR rest (attempt + 1) p).attempts + 1⟩) := by
  have hrun : runAttempt part e resp =
      if 0 < (if 0 < e then e else total) ∧
          100 * c.length < 99 * (if 0 < e then e else total)
      then AttemptOutcome.verifyFail (some c) else .success c := by
    simp only [runAttempt, h]
  set k := (if 0 < e then e else total) with hk
  refine ⟨?_, ?_, ?_, ?_⟩
  · rw [hrun]
    by_cases hcond : 0 < k ∧ 100 * c.length < 99 * k
    · rw [if_pos hcond]
      constructor
      · intro h'
        exact absurd h' (by simp)
      · intro hle
        exact absurd hle (by omega)
    · rw [if_neg hcond]
      simp only [true_iff]
      omega
  · intro hlt
    rw [hrun, if_pos ⟨by omega, hlt⟩]
  · intro maxR rest attempt hs
    simp [downloadGo, hs]
  · intro maxR rest attempt p hv
    simp [downloadGo, hv]

theorem c3_verify_and_finalize_witness :
    runAttempt none 0 ⟨200, none, some 10, [1, 2, 3, 4, 5, 6, 7, 8, 9, 10], false⟩ =
      .success [1, 2, 3, 4, 5, 6, 7, 8, 9, 10] :=
  (c3_verify_and_finalize none 0 _ [1, 2, 3, 4, 5, 6, 7, 8, 9, 10] 10
    (by decide)).1.mpr (by decide)

/-- C10: when expectedSizeBytes is 0 and the response reports no usable
total (status 200 with no content-length, so the learned total is 0), size
verification passes unconditionally: whatever was streamed - including
nothing - is accepted on the first attempt, the part file is renamed to
the final path, and the call returns true. -/
theorem c10_zero_total_accepts (part : Option (List Nat)) (resp : Response)
    (rest : List Response) (maxR : Nat) (hmr : 0 < maxR)
    (hs : resp.status = 200) (hcl : resp.contentLength = none)
    (hc : resp.connectError = false) :
    (attemptWrite part resp).isSome = true ∧
    ∀ c total, attemptWrite part resp = some (c, total) →
      total = 0 ∧
      download_file (resp :: rest) 0 maxR part = ⟨true, some c, none, 0, 1⟩ := by
  obtain ⟨k, rfl⟩ : ∃ k, maxR = k + 1 := ⟨maxR - 1, by omega⟩
  have main : ∀ c0, attemptWrite part resp = some (c0, 0) →
      download_file (resp :: rest) 0 (k + 1) part = ⟨true, some c0, none, 0, 1⟩ := by
    intro c0 hct
    have hra : runAttempt part 0 resp = .success c0 := by
      simp only [runAttempt, hct]
      simp
    simp [download_file, List.take_succ_cons, downloadGo, hra]
  have finish : ∀ c0, attemptWrite part resp = some (c0, 0) →
      (attemptWrite part resp).isSome = true ∧
      ∀ c total, attemptWrite part resp = some (c, total) →
        total = 0 ∧
        download_file (resp :: rest) 0 (k + 1) part = ⟨true, some c, none, 0, 1⟩ := by
    intro c0 hct
    refine ⟨by simp [hct], fun c total h' => ?_⟩
    rw [hct] at h'
    simp only [Option.some.injEq, Prod.mk.injEq] at h'
    obtain ⟨h1, h2⟩ := h'
    subst h1
    cases h2
    exact ⟨rfl, main c0 hct⟩
  rcases part with _ | bs
  · exact finish resp.body (by simp [attemptWrite, probeResume, hs, hcl, hc])
  · by_cases hb : 0 < bs.length
    · exact finish resp.body (by simp [attemptWrite, probeResume, hs, hcl, hc, hb])
    · have hbs : bs = [] := by
        cases bs
        · rfl
        · simp at hb
      subst hbs
      exact finish resp.body (by simp [attemptWrite, probeResume, hs, hcl, hc])

theorem c10_zero_total_accepts_witness :
    download_file [⟨200, none, none, [], false⟩] 0 3 (some [1]) =
      ⟨true, some [], none, 0, 1⟩ :=
  ((c10_zero_total_accepts (some [1]) ⟨200, none, none, [], false⟩ [] 3
    (by decide) rfl rfl rfl).2 [] 0 (by decide)).2

/-! ## Canonical-set reconciliation -/

/-- C7: for a listed item whose final file exists, a positive declared
size with the actual size below 99 percent of it deletes the file, counts
it incomplete and queues it for re-download; otherwise the item counts as
already-have and is skipped, reaching neither the deletion nor the
transfer queue. -/
theorem c7_existing_file_reconciliation (s : RecState) (it : RelItem)
    (hex : it.existsFinal = true) :
    (0 < it.size → 100 * it.actualSize < 99 * it.size →
      releaseStep s it =
        ⟨s.alreadyHave, s.incomplete + 1, s.deleted ++ [it], s.pending ++ [it]⟩) ∧
    (it.size = 0 ∨ 99 * it.size ≤ 100 * it.actualSize →
      releaseStep s it = ⟨s.alreadyHave + 1, s.incomplete, s.deleted, s.pending⟩) := by
  constructor
  · intro h1 h2
    simp [releaseStep, hex, h1, h2]
  · intro h
    have hcond : ¬(0 < it.size ∧ 100 * it.actualSize < 99 * it.size) := by omega
    simp [releaseStep, hex, hcond]

theorem c7_existing_file_reconciliation_witness :
    releaseStep ⟨0, 0, [], []⟩ ⟨true, 10, 100⟩ =
      ⟨0, 1, [⟨true, 10, 100⟩], [⟨true, 10, 100⟩]⟩ ∧
    releaseStep ⟨0, 0, [], []⟩ ⟨true, 99, 100⟩ = ⟨1, 0, [], []⟩ :=
  ⟨(c7_existing_file_reconciliation ⟨0, 0, [], []⟩ ⟨true, 10, 100⟩ rfl).1
      (by decide) (by decide),
    (c7_existing_file_reconciliation ⟨0, 0, [], []⟩ ⟨true, 99, 100⟩ rfl).2
      (Or.inr (by decide))⟩

/-! ## Similarity matcher and cleanup pass -/

theorem findMatchLoop_cons_skip (sim : List Nat → List Nat → ℚ) (nr : List Nat)
    (thr : ℚ) (f : DirEntry) (rest : List DirEntry)
    (h : ¬(f.isFile = true ∧ lowerStr (pathSuffix f.name) ∈ allowedSuffixes ∧
        thr ≤ sim nr (normalize_title f.name))) :
    findMatchLoop sim nr thr (f :: rest) = findMatchLoop sim nr thr rest := by
  by_cases h1 : f.isFile = false
  · simp [findMatchLoop, h1]
  · have h1' : f.isFile = true := by revert h1; cases f.isFile <;> simp
    by_cases h2 : lowerStr (pathSuffix f.name) ∈ allowedSuffixes
    · have h3 : ¬ thr ≤ sim nr (normalize_title f.name) := fun hc => h ⟨h1', h2, hc⟩
      simp [findMatchLoop, h1', h2, h3]
    · simp [findMatchLoop, h1', h2]

theorem findMatchLoop_cons_found (sim : List Nat → List Nat → ℚ) (nr : List Nat)
    (thr : ℚ) (f : DirEntry) (rest : List DirEntry) (h1 : f.isFile = true)
    (h2 : lowerStr (pathSuffix f.name) ∈ allowedSuffixes)
    (h3 : thr ≤ sim nr (normalize_title f.name)) :
    findMatchLoop sim nr thr (f :: rest) = some f := by
  simp [findMatchLoop, h1, h2, h3]

theorem findMatchLoop_none (sim : List Nat → List Nat → ℚ) (nr : List Nat)
    (thr : ℚ) (l : List DirEntry)
    (h : ∀ f ∈ l, ¬(f.isFile = true ∧ lowerStr (pathSuffix f.name) ∈ allowedSuffixes ∧
        thr ≤ sim nr (normalize_title f.name))) :
    findMatchLoop sim nr thr l = none := by
  induction l with
  | nil => rfl
  | cons f rest ih =>
    rw [findMatchLoop_cons_skip sim nr thr f rest (h f (by simp))]
    exact ih (fun g hg => h g (by simp [hg]))

/-- C6: the matcher returns absent when the directory does not exist;
otherwise it returns the first enumerated regular file with an allowed
extension whose similarity ratio with the candidate reaches the threshold
(so a file at exactly the threshold is a match), and returns absent when
no enumerated file qualifies (so a file just below the threshold alone is
no match). -/
theorem c6_first_match_at_threshold (sim : List Nat → List Nat → ℚ)
    (title : List Nat) (thr : ℚ) :
    find_matching_release sim title none thr = none ∧
    (∀ entries : List DirEntry,
      (∀ f ∈ entries, ¬(f.isFile = true ∧
          lowerStr (pathSuffix f.name) ∈ allowedSuffixes ∧
          thr ≤ sim (normalize_title title) (normalize_title f.name))) →
      find_matching_release sim title (some entries) thr = none) ∧
    (∀ (zs : List DirEntry) (f : DirEntry) (rest : List DirEntry),
      f.isFile = true → lowerStr (pathSuffix f.name) ∈ allowedSuffixes →
      thr ≤ sim (normalize_title title) (normalize_title f.name) →
      (∀ g ∈ zs, ¬(g.isFile = true ∧
          lowerStr (pathSuffix g.name) ∈ allowedSuffixes ∧
          thr ≤ sim (normalize_title title) (normalize_title g.name))) →
      find_matching_release sim title (some (zs ++ f :: rest)) thr = some f) := by
  refine ⟨rfl, ?_, ?_⟩
  · intro entries h
    exact findMatchLoop_none sim (normalize_title title) thr entries h
  · intro zs f rest h1 h2 h3 hz
    show findMatchLoop sim (normalize_title title) thr (zs ++ f :: rest) = some f
    induction zs with
    | nil =>
      simpa using findMatchLoop_cons_found sim (normalize_title title) thr f rest h1 h2 h3
    | cons g gs ih =>
      rw [List.cons_append,
        findMatchLoop_cons_skip sim (normalize_title title) thr g _ (hz g (by simp))]
      exact ih (fun g' hg' => hz g' (by simp [hg']))

theorem c6_first_match_at_threshold_witness :
    find_matching_release (fun _ _ => (17 / 20 : ℚ)) [97]
      (some [⟨[120, 46, 116, 120, 116], true⟩, ⟨[97, 46, 109, 112, 52], true⟩])
      (17 / 20) = some ⟨[97, 46, 109, 112, 52], true⟩ :=
  (c6_first_match_at_threshold (fun _ _ => (17 / 20 : ℚ)) [97] (17 / 20)).2.2
    [⟨[120, 46, 116, 120, 116], true⟩] ⟨[97, 46, 109, 112, 52], true⟩ [] rfl
    (by decide) (le_refl _)
    (by
      intro g hg
      rw [List.mem_singleton] at hg
      subst hg
      rintro ⟨-, hmem, -⟩
      revert hmem
      decide)

theorem filter_not_then_filter {α : Type} (p : α → Bool) (l : List α) :
    (l.filter fun f => !(p f)).filter p = [] ∧
    (l.filter fun f => !(p f)).filter (fun f => !(p f)) = l.filter fun f => !(p f) := by
  induction l with
  | nil => exact ⟨rfl, rfl⟩
  | cons a l ih =>
    by_cases ha : p a = true
    · simp [List.filter_cons, ha, ih]
    · have ha' : p a = false := by revert ha; cases p a <;> simp
      simp [List.filter_cons, ha', ih]

theorem cleanupLoop_eq_filter (sim : List Nat → List Nat → ℚ)
    (rel : List DirEntry) (rl : List (List Nat)) :
    cleanupLoop sim rel rl =
      (rl.filter (fun f => !(isMp4Name f &&
          (find_matching_release sim f (some rel) (85 / 100)).isSome)),
       (rl.filter (fun f => isMp4Name f &&
          (find_matching_release sim f (some rel) (85 / 100)).isSome)).length) := by
  induction rl with
  | nil => rfl
  | cons f rest ih =>
    cases hb : isMp4Name f && (find_matching_release sim f (some rel) (85 / 100)).isSome with
    | true =>
      have hnot : ¬((!(isMp4Name f &&
          (find_matching_release sim f (some rel) (85 / 100)).isSome)) = true) := by
        rw [hb]; decide
      simp only [cleanupLoop, ih]
      rw [if_pos hb, List.filter_cons, List.filter_cons]
      rw [if_neg hnot, if_pos hb]
      simp
    | false =>
      have hyes : (!(isMp4Name f &&
          (find_matching_release sim f (some rel) (85 / 100)).isSome)) = true := by
        rw [hb]; decide
      have hno : ¬((isMp4Name f &&
          (find_matching_release sim f (some rel) (85 / 100)).isSome) = true) := by
        rw [hb]; decide
      simp only [cleanupLoop, ih]
      rw [if_neg hno, List.filter_cons, List.filter_cons]
      rw [if_pos hyes, if_neg hno]

/-- C8: with both directories present, the cleanup pass deletes exactly
the relive files matching the *.mp4 glob for which the matcher finds a
release, and returns the count removed; with no external changes, a second
run leaves the directory unchanged and removes zero files. -/
theorem c8_cleanup_exact_and_idempotent (sim : List Nat → List Nat → ℚ)
    (rl : List (List Nat)) (rel : List DirEntry) :
    cleanup_relive_duplicates sim (some rl) (some rel) =
      (some (rl.filter (fun f => !(isMp4Name f &&
          (find_matching_release sim f (some rel) (85 / 100)).isSome))),
       (rl.filter (fun f => isMp4Name f &&
          (find_matching_release sim f (some rel) (85 / 100)).isSome)).length) ∧
    cleanup_relive_duplicates sim
        (cleanup_relive_duplicates sim (some rl) (some rel)).1 (some rel) =
      ((cleanup_relive_duplicates sim (some rl) (some rel)).1, 0) := by
  have h1 : cleanup_relive_duplicates sim (some rl) (some rel) =
      (some (rl.filter (fun f => !(isMp4Name f &&
          (find_matching_release sim f (some rel) (85 / 100)).isSome))),
       (rl.filter (fun f => isMp4Name f &&
          (find_matching_release sim f (some rel) (85 / 100)).isSome)).length) := by
    simp [cleanup_relive_duplicates, cleanupLoop_eq_filter]
  refine ⟨h1, ?_⟩
  rw [h1]
  have h2 := filter_not_then_filter
    (fun f => isMp4Name f && (find_matching_release sim f (some rel) (85 / 100)).isSome) rl
  simp only [cleanup_relive_duplicates]
  rw [cleanupLoop_eq_filter, h2.1, h2.2]
  simp

/-! ## UTF-8 lemmas for the sanitizer -/

theorem isCont_iff {b : Nat} : isCont b = true ↔ (128 ≤ b ∧ b < 192) := by
  simp [isCont]

theorem isCont_false_iff {b : Nat} : isCont b = false ↔ ¬(128 ≤ b ∧ b < 192) := by
  simp [isCont]

theorem decodeIgnoreGo_nil (f : Nat) : decodeIgnoreGo f [] = [] := by
  cases f <;> rfl

theorem decodeIgnoreGo_congr (f : Nat) : ∀ (bs : List Nat) (g : Nat),
    bs.length ≤ f → bs.length ≤ g → decodeIgnoreGo f bs = decodeIgnoreGo g bs := by
  induction f with
  | zero =>
    intro bs g hf _
    have hbs : bs = [] := by
      cases bs
      · rfl
      · simp at hf
    subst hbs
    rw [decodeIgnoreGo_nil, decodeIgnoreGo_nil]
  | succ f ih =>
    intro bs g hf hg
    cases bs with
    | nil => rw [decodeIgnoreGo_nil, decodeIgnoreGo_nil]
    | cons b bs =>
      obtain ⟨g', rfl⟩ : ∃ g', g = g' + 1 := ⟨g - 1, by simp at hg; omega⟩
      have hlf : bs.length ≤ f := by simp at hf; omega
      have hlg : bs.length ≤ g' := by simp at hg; omega
      simp only [decodeIgnoreGo]
      by_cases h1 : b < 128
      · rw [if_pos h1, if_pos h1, ih bs g' hlf hlg]
      · rw [if_neg h1, if_neg h1]
        by_cases h2 : b < 194
        · rw [if_pos h2, if_pos h2, ih bs g' hlf hlg]
        · rw [if_neg h2, if_neg h2]
          by_cases h3 : b < 224
          · rw [if_pos h3, if_pos h3]
            cases bs with
            | nil => rfl
            | cons b1 bs1 =>
              have hf1 : bs1.length ≤ f := by simp at hlf; omega
              have hg1 : bs1.length ≤ g' := by simp at hlg; omega
              by_cases h4 : 128 ≤ b1 ∧ b1 < 192
              · simp only [if_pos h4, ih bs1 g' hf1 hg1]
              · simp only [if_neg h4, ih (b1 :: bs1) g' hlf hlg]
          · rw [if_neg h3, if_neg h3]
            by_cases h5 : b < 240
            · rw [if_pos h5, if_pos h5]
              cases bs with
              | nil => rw [decodeIgnoreGo_nil, decodeIgnoreGo_nil]
              | cons b1 bs1 =>
                cases bs1 with
                | nil => rw [ih [b1] g' hlf hlg]
                | cons b2 bs2 =>
                  have hf2 : bs2.length ≤ f := by simp at hlf; omega
                  have hg2 : bs2.length ≤ g' := by simp at hlg; omega
                  by_cases h6 : (128 ≤ b1 ∧ b1 < 192) ∧ (128 ≤ b2 ∧ b2 < 192) ∧
                      (b = 224 → 160 ≤ b1) ∧ (b = 237 → b1 < 160)
                  · simp only [if_pos h6, ih bs2 g' hf2 hg2]
                  · simp only [if_neg h6, ih (b1 :: b2 :: bs2) g' hlf hlg]
            · rw [if_neg h5, if_neg h5]
              by_cases h7 : b < 245
              · rw [if_pos h7, if_pos h7]
                cases bs with
                | nil => rw [decodeIgnoreGo_nil, decodeIgnoreGo_nil]
                | cons b1 bs1 =>
                  cases bs1 with
                  | nil => rw [ih [b1] g' hlf hlg]
                  | cons b2 bs2 =>
                    cases bs2 with
                    | nil => rw [ih [b1, b2] g' hlf hlg]
                    | cons b3 bs3 =>
                      have hf3 : bs3.length ≤ f := by simp at hlf; omega
                      have hg3 : bs3.length ≤ g' := by simp at hlg; omega
                      by_cases h8 : (128 ≤ b1 ∧ b1 < 192) ∧ (128 ≤ b2 ∧ b2 < 192) ∧
                          (128 ≤ b3 ∧ b3 < 192) ∧ (b = 240 → 144 ≤ b1) ∧
                          (b = 244 → b1 < 144)
                      · simp only [if_pos h8, ih bs3 g' hf3 hg3]
                      · simp only [if_neg h8, ih (b1 :: b2 :: b3 :: bs3) g' hlf hlg]
              · rw [if_neg h7, if_neg h7, ih bs g' hlf hlg]

theorem decodeIgnoreGo_eq (f : Nat) (bs : List Nat) (h : bs.length ≤ f) :
    decodeIgnoreGo f bs = decodeIgnore bs :=
  decodeIgnoreGo_congr f bs bs.length h le_rfl

theorem decodeIgnore_cons_ascii (b : Nat) (bs : List Nat) (h : b < 128) :
    decodeIgnore (b :: bs) = b :: decodeIgnore bs := by
  show decodeIgnoreGo (b :: bs).length (b :: bs) = _
  rw [List.length_cons]
  simp only [decodeIgnoreGo, if_pos h]
  rfl

theorem decodeIgnore_nil : decodeIgnore [] = [] := rfl

theorem utf8EncodeChar_shape (c : Nat) (hv : validScalar c) :
    ∃ b rest, utf8EncodeChar c = b :: rest ∧ (∀ x ∈ rest, isCont x = true) ∧
      isCont b = false ∧ (rest = [] → b = c ∧ c < 128) ∧
      (rest ≠ [] → 194 ≤ b ∧ b < 245) := by
  obtain ⟨hv1, hv2⟩ := hv
  unfold utf8EncodeChar
  by_cases h1 : c < 128
  · rw [if_pos h1]
    exact ⟨c, [], rfl, by simp, isCont_false_iff.mpr (by omega),
      fun _ => ⟨rfl, h1⟩, by simp⟩
  · rw [if_neg h1]
    by_cases h2 : c < 2048
    · rw [if_pos h2]
      refine ⟨_, _, rfl, ?_, isCont_false_iff.mpr (by omega), by simp, fun _ => ?_⟩
      · intro x hx
        rw [List.mem_singleton] at hx
        subst hx
        exact isCont_iff.mpr (by omega)
      · constructor <;> omega
    · rw [if_neg h2]
      by_cases h3 : c < 65536
      · rw [if_pos h3]
        refine ⟨_, _, rfl, ?_, isCont_false_iff.mpr (by omega), by simp, fun _ => ?_⟩
        · intro x hx
          simp only [List.mem_cons, List.mem_singleton, List.not_mem_nil, or_false] at hx
          rcases hx with rfl | rfl <;> exact isCont_iff.mpr (by omega)
        · constructor <;> omega
      · rw [if_neg h3]
        refine ⟨_, _, rfl, ?_, isCont_false_iff.mpr (by omega), by simp, fun _ => ?_⟩
        · intro x hx
          simp only [List.mem_cons, List.mem_singleton, List.not_mem_nil, or_false] at hx
          rcases hx with rfl | rfl | rfl <;> exact isCont_iff.mpr (by omega)
        · constructor <;> omega

theorem decodeIgnore_encodeChar (c : Nat) (hv : validScalar c) (t : List Nat) :
    decodeIgnore (utf8EncodeChar c ++ t) = c :: decodeIgnore t := by
  obtain ⟨hv1, hv2⟩ := hv
  by_cases h1 : c < 128
  · rw [show utf8EncodeChar c = [c] from by unfold utf8EncodeChar; rw [if_pos h1]]
    rw [List.singleton_append, decodeIgnore_cons_ascii c t h1]
  · by_cases h2 : c < 2048
    · rw [show utf8EncodeChar c = [192 + c / 64, 128 + c % 64] from by
        unfold utf8EncodeChar; rw [if_neg h1, if_pos h2]]
      show decodeIgnoreGo ([192 + c / 64, 128 + c % 64] ++ t).length _ = _
      simp only [List.cons_append, List.nil_append, List.length_cons]
      simp only [decodeIgnoreGo]
      rw [if_neg (by omega), if_neg (by omega), if_pos (by omega),
        if_pos (show 128 ≤ 128 + c % 64 ∧ 128 + c % 64 < 192 by omega)]
      rw [decodeIgnoreGo_eq _ t (by omega)]
      congr 1
      omega
    · by_cases h3 : c < 65536
      · rw [show utf8EncodeChar c =
            [224 + c / 4096, 128 + c / 64 % 64, 128 + c % 64] from by
          unfold utf8EncodeChar; rw [if_neg h1, if_neg h2, if_pos h3]]
        show decodeIgnoreGo
          ([224 + c / 4096, 128 + c / 64 % 64, 128 + c % 64] ++ t).length _ = _
        simp only [List.cons_append, List.nil_append, List.length_cons]
        simp only [decodeIgnoreGo]
        rw [if_neg (by omega), if_neg (by omega), if_neg (by omega),
          if_pos (by omega)]
        rw [if_pos (show (128 ≤ 128 + c / 64 % 64 ∧ 128 + c / 64 % 64 < 192) ∧
            (128 ≤ 128 + c % 64 ∧ 128 + c % 64 < 192) ∧
            (224 + c / 4096 = 224 → 160 ≤ 128 + c / 64 % 64) ∧
            (224 + c / 4096 = 237 → 128 + c / 64 % 64 < 160) by
          refine ⟨by omega, by omega, ?_, ?_⟩ <;> intro he <;> omega)]
        rw [decodeIgnoreGo_eq _ t (by omega)]
        congr 1
        omega
      · rw [show utf8EncodeChar c =
            [240 + c / 262144, 128 + c / 4096 % 64, 128 + c / 64 % 64, 128 + c % 64]
            from by unfold utf8EncodeChar; rw [if_neg h1, if_neg h2, if_neg h3]]
        show decodeIgnoreGo
          ([240 + c / 262144, 128 + c / 4096 % 64, 128 + c / 64 % 64, 128 + c % 64] ++
            t).length _ = _
        simp only [List.cons_append, List.nil_append, List.length_cons]
        simp only [decodeIgnoreGo]
        rw [if_neg (by omega), if_neg (by omega), if_neg (by omega),
          if_neg (by omega), if_pos (by omega)]
        rw [if_pos (show (128 ≤ 128 + c / 4096 % 64 ∧ 128 + c / 4096 % 64 < 192) ∧
            (128 ≤ 128 + c / 64 % 64 ∧ 128 + c / 64 % 64 < 192) ∧
            (128 ≤ 128 + c % 64 ∧ 128 + c % 64 < 192) ∧
            (240 + c / 262144 = 240 → 144 ≤ 128 + c / 4096 % 64) ∧
            (240 + c / 262144 = 244 → 128 + c / 4096 % 64 < 144) by
          refine ⟨by omega, by omega, by omega, ?_, ?_⟩ <;> intro he <;> omega)]
        rw [decodeIgnoreGo_eq _ t (by omega)]
        congr 1
        omega

theorem decodeIgnore_single_leader (b : Nat) (hb : 194 ≤ b) (hb2 : b < 245) :
    decodeIgnore [b] = [] := by
  show decodeIgnoreGo 1 [b] = []
  simp only [decodeIgnoreGo]
  rw [if_neg (by omega), if_neg (by omega)]
  by_cases h3 : b < 224
  · rw [if_pos h3]
  · rw [if_neg h3]
    by_cases h5 : b < 240
    · rw [if_pos h5]
    · rw [if_neg h5, if_pos hb2]

theorem dropWhile_append_all {p : Nat → Bool} (a b : List Nat)
    (h : ∀ x ∈ a, p x = true) : (a ++ b).dropWhile p = b.dropWhile p := by
  induction a with
  | nil => rfl
  | cons c a ih =>
    rw [List.cons_append, List.dropWhile_cons, if_pos (h c (by simp))]
    exact ih (fun x hx => h x (by simp [hx]))

theorem stripContRight_leader (b : Nat) (rest : List Nat)
    (hb : isCont b = false) (hr : ∀ x ∈ rest, isCont x = true) :
    stripContRight (b :: rest) = [b] := by
  unfold stripContRight
  rw [List.reverse_cons,
    dropWhile_append_all rest.reverse [b]
      (fun x hx => hr x (by rwa [List.mem_reverse] at hx)),
    List.dropWhile_cons, if_neg (by rw [hb]; simp)]
  rfl

theorem stripContRight_append (xs ys : List Nat) (h : stripContRight ys ≠ []) :
    stripContRight (xs ++ ys) = xs ++ stripContRight ys := by
  unfold stripContRight at *
  rw [List.reverse_append, List.dropWhile_append]
  have hne : (ys.reverse.dropWhile isCont).isEmpty = false := by
    cases hh : ys.reverse.dropWhile isCont with
    | nil => exact absurd (by rw [hh]; rfl) h
    | cons a l => rfl
  rw [if_neg (by rw [hne]; simp), List.reverse_append, List.reverse_reverse]

theorem stripContRight_ne_nil (b : Nat) (rest : List Nat) (hb : isCont b = false) :
    stripContRight (b :: rest) ≠ [] := by
  unfold stripContRight
  intro hcontra
  rw [List.reverse_eq_nil_iff, List.dropWhile_eq_nil_iff] at hcontra
  have := hcontra b (by simp)
  rw [hb] at this
  exact absurd this (by simp)

theorem stripContRight_nil : stripContRight [] = [] := rfl

theorem utf8Encode_nil : utf8Encode [] = [] := rfl

theorem utf8Encode_cons (c : Nat) (cs : List Nat) :
    utf8Encode (c :: cs) = utf8EncodeChar c ++ utf8Encode cs := by
  simp [utf8Encode]

theorem utf8Encode_append (a b : List Nat) :
    utf8Encode (a ++ b) = utf8Encode a ++ utf8Encode b := by
  simp [utf8Encode]

/-- Truncating the UTF-8 encoding of a list of scalar values at an
arbitrary byte position, stripping trailing continuation bytes and
decoding with the ignore handler recovers a code-point-aligned front of
the original list, whose encoding fits in the truncation budget. -/
theorem decode_take_spec (cs : List Nat) (hv : ∀ c ∈ cs, validScalar c) (n : Nat) :
    ∃ cs1 cs2, cs = cs1 ++ cs2 ∧
      decodeIgnore (stripContRight ((utf8Encode cs).take n)) = cs1 ∧
      (utf8Encode cs1).length ≤ n := by
  induction cs generalizing n with
  | nil =>
    exact ⟨[], [], rfl, by rw [utf8Encode_nil, List.take_nil, stripContRight_nil,
      decodeIgnore_nil], by rw [utf8Encode_nil]; exact Nat.zero_le n⟩
  | cons c cs ih =>
    have hvc : validScalar c := hv c (by simp)
    have hvcs : ∀ x ∈ cs, validScalar x := fun x hx => hv x (by simp [hx])
    obtain ⟨b, rest, he, hrc, hbc, hone, hmulti⟩ := utf8EncodeChar_shape c hvc
    have hE : utf8Encode (c :: cs) = utf8EncodeChar c ++ utf8Encode cs :=
      utf8Encode_cons c cs
    by_cases hn : (utf8EncodeChar c).length ≤ n
    · have htake : (utf8Encode (c :: cs)).take n =
          utf8EncodeChar c ++ (utf8Encode cs).take (n - (utf8EncodeChar c).length) := by
        rw [hE, List.take_append_eq_append_take, List.take_of_length_le hn]
      by_cases hz : (utf8Encode cs).take (n - (utf8EncodeChar c).length) = []
      · rw [htake, hz, List.append_nil]
        cases hrest : rest with
        | nil =>
          obtain ⟨hbc', hclt⟩ := hone hrest
          subst hrest
          subst hbc'
          rw [he, stripContRight_leader b [] hbc (by simp),
            decodeIgnore_cons_ascii b [] hclt, decodeIgnore_nil]
          refine ⟨[b], cs, rfl, rfl, ?_⟩
          rw [utf8Encode_cons, utf8Encode_nil, List.append_nil, he]
          rw [he] at hn
          simpa using hn
        | cons r0 rs =>
          have hm := hmulti (by rw [hrest]; simp)
          rw [he, stripContRight_leader b rest hbc hrc,
            decodeIgnore_single_leader b hm.1 hm.2]
          exact ⟨[], c :: cs, rfl, rfl, by rw [utf8Encode_nil]; exact Nat.zero_le n⟩
      · have hcs_ne : cs ≠ [] := by
          intro h0
          subst h0
          rw [utf8Encode_nil, List.take_nil] at hz
          exact hz rfl
        obtain ⟨c', cs', rfl⟩ : ∃ c' cs', cs = c' :: cs' := by
          cases cs with
          | nil => exact absurd rfl hcs_ne
          | cons a l => exact ⟨a, l, rfl⟩
        obtain ⟨b', rest', he2, hrc2, hbc2, hone2, hmulti2⟩ :=
          utf8EncodeChar_shape c' (hvcs c' (by simp))
        have hEcs : utf8Encode (c' :: cs') = b' :: (rest' ++ utf8Encode cs') := by
          rw [utf8Encode_cons, he2, List.cons_append]
        obtain ⟨m, hm'⟩ : ∃ m, n - (utf8EncodeChar c).length = m + 1 := by
          refine ⟨n - (utf8EncodeChar c).length - 1, ?_⟩
          rcases Nat.eq_zero_or_pos (n - (utf8EncodeChar c).length) with h0 | h0
          · rw [h0] at hz
            simp at hz
          · omega
        have hne : stripContRight
            ((utf8Encode (c' :: cs')).take (n - (utf8EncodeChar c).length)) ≠ [] := by
          rw [hEcs, hm', List.take_succ_cons]
          exact stripContRight_ne_nil b' _ hbc2
        rw [htake, stripContRight_append _ _ hne, decodeIgnore_encodeChar c hvc _]
        obtain ⟨cs1, cs2, hsplit, hdec, hlen⟩ := ih hvcs (n - (utf8EncodeChar c).length)
        refine ⟨c :: cs1, cs2, by rw [List.cons_append, ← hsplit], by rw [hdec], ?_⟩
        rw [utf8Encode_cons, List.length_append]
        omega
    · by_cases hn0 : n = 0
      · subst hn0
        rw [List.take_zero, stripContRight_nil, decodeIgnore_nil]
        exact ⟨[], c :: cs, rfl, rfl, by rw [utf8Encode_nil]; exact Nat.le_refl 0⟩
      · have hrest_ne : rest ≠ [] := by
          intro h0
          have hL : (utf8EncodeChar c).length = 1 := by rw [he, h0]; rfl
          omega
        have hm := hmulti hrest_ne
        obtain ⟨k, rfl⟩ : ∃ k, n = k + 1 := ⟨n - 1, by omega⟩
        have htake : (utf8Encode (c :: cs)).take (k + 1) = b :: rest.take k := by
          rw [hE, List.take_append_eq_append_take, he, List.length_cons,
            List.take_succ_cons]
          have hz : k + 1 - (rest.length + 1) = 0 := by
            rw [he] at hn
            simp at hn
            omega
          rw [hz, List.take_zero, List.append_nil]
        rw [htake,
          stripContRight_leader b _ hbc (fun x hx => hrc x (List.mem_of_mem_take hx)),
          decodeIgnore_single_leader b hm.1 hm.2]
        exact ⟨[], c :: cs, rfl, rfl, by rw [utf8Encode_nil]; exact Nat.zero_le _⟩

theorem mem_utf8EncodeChar_of_lt {b c : Nat} (hb : b < 128)
    (h : b ∈ utf8EncodeChar c) : b = c := by
  unfold utf8EncodeChar at h
  split_ifs at h with h1 h2 h3
  · simpa using h
  · simp only [List.mem_cons, List.mem_singleton, List.not_mem_nil, or_false] at h
    rcases h with h | h <;> omega
  · simp only [List.mem_cons, List.mem_singleton, List.not_mem_nil, or_false] at h
    rcases h with h | h | h <;> omega
  · simp only [List.mem_cons, List.mem_singleton, List.not_mem_nil, or_false] at h
    rcases h with h | h | h | h <;> omega

theorem ascii_mem_utf8Encode {b : Nat} (hb : b < 128) {cs : List Nat}
    (h : b ∈ utf8Encode cs) : b ∈ cs := by
  rw [utf8Encode, List.mem_flatMap] at h
  obtain ⟨c, hc, hbc⟩ := h
  have := mem_utf8EncodeChar_of_lt hb hbc
  subst this
  exact hc

theorem ascii_mem_decodeIgnoreGo {b : Nat} (hb : b < 128) :
    ∀ (f : Nat) (bs : List Nat), b ∈ decodeIgnoreGo f bs → b ∈ bs := by
  intro f
  induction f with
  | zero =>
    intro bs h
    rw [show decodeIgnoreGo 0 bs = [] from rfl] at h
    simp at h
  | succ f ih =>
    intro bs h
    cases bs with
    | nil => rw [decodeIgnoreGo_nil] at h; simp at h
    | cons b0 bs =>
      simp only [decodeIgnoreGo] at h
      by_cases h1 : b0 < 128
      · rw [if_pos h1] at h
        rcases List.mem_cons.mp h with rfl | h'
        · simp
        · exact List.mem_cons_of_mem b0 (ih bs h')
      · rw [if_neg h1] at h
        by_cases h2 : b0 < 194
        · rw [if_pos h2] at h
          exact List.mem_cons_of_mem b0 (ih bs h)
        · rw [if_neg h2] at h
          by_cases h3 : b0 < 224
          · rw [if_pos h3] at h
            cases bs with
            | nil => simp at h
            | cons b1 bs1 =>
              by_cases h4 : 128 ≤ b1 ∧ b1 < 192
              · simp only [if_pos h4] at h
                rcases List.mem_cons.mp h with hc | h'
                · omega
                · exact List.mem_cons_of_mem b0 (List.mem_cons_of_mem b1 (ih bs1 h'))
              · simp only [if_neg h4] at h
                exact List.mem_cons_of_mem b0 (ih _ h)
          · rw [if_neg h3] at h
            by_cases h5 : b0 < 240
            · rw [if_pos h5] at h
              cases bs with
              | nil =>
                rw [decodeIgnoreGo_nil] at h
                simp at h
              | cons b1 bs1 =>
                cases bs1 with
                | nil => exact List.mem_cons_of_mem b0 (ih _ h)
                | cons b2 bs2 =>
                  by_cases h6 : (128 ≤ b1 ∧ b1 < 192) ∧ (128 ≤ b2 ∧ b2 < 192) ∧
                      (b0 = 224 → 160 ≤ b1) ∧ (b0 = 237 → b1 < 160)
                  · simp only [if_pos h6] at h
                    rcases List.mem_cons.mp h with hc | h'
                    · obtain ⟨h61, h62, h63, h64⟩ := h6
                      rcases eq_or_ne b0 224 with rfl | hne
                      · have := h63 rfl
                        omega
                      · omega
                    · exact List.mem_cons_of_mem b0 (List.mem_cons_of_mem b1
                        (List.mem_cons_of_mem b2 (ih bs2 h')))
                  · simp only [if_neg h6] at h
                    exact List.mem_cons_of_mem b0 (ih _ h)
            · rw [if_neg h5] at h
              by_cases h7 : b0 < 245
              · rw [if_pos h7] at h
                cases bs with
                | nil =>
                  rw [decodeIgnoreGo_nil] at h
                  simp at h
                | cons b1 bs1 =>
                  cases bs1 with
                  | nil => exact List.mem_cons_of_mem b0 (ih _ h)
                  | cons b2 bs2 =>
                    cases bs2 with
                    | nil => exact List.mem_cons_of_mem b0 (ih _ h)
                    | cons b3 bs3 =>
                      by_cases h8 : (128 ≤ b1 ∧ b1 < 192) ∧ (128 ≤ b2 ∧ b2 < 192) ∧
                          (128 ≤ b3 ∧ b3 < 192) ∧ (b0 = 240 → 144 ≤ b1) ∧
                          (b0 = 244 → b1 < 144)
                      · simp only [if_pos h8] at h
                        rcases List.mem_cons.mp h with hc | h'
                        · obtain ⟨h81, h82, h83, h84, h85⟩ := h8
                          rcases eq_or_ne b0 240 with rfl | hne
                          · have := h84 rfl
                            omega
                          · omega
                        · exact List.mem_cons_of_mem b0 (List.mem_cons_of_mem b1
                            (List.mem_cons_of_mem b2 (List.mem_cons_of_mem b3
                              (ih bs3 h'))))
                      · simp only [if_neg h8] at h
                        exact List.mem_cons_of_mem b0 (ih _ h)
              · rw [if_neg h7] at h
                exact List.mem_cons_of_mem b0 (ih bs h)

theorem ascii_mem_decodeIgnore {b : Nat} (hb : b < 128) {bs : List Nat}
    (h : b ∈ decodeIgnore bs) : b ∈ bs :=
  ascii_mem_decodeIgnoreGo hb bs.length bs h

theorem mem_stripContRight {c : Nat} {l : List Nat} (h : c ∈ stripContRight l) :
    c ∈ l := by
  unfold stripContRight at h
  rw [List.mem_reverse] at h
  have hsub : (List.dropWhile isCont l.reverse).Sublist l.reverse :=
    List.dropWhile_sublist isCont
  have := hsub.subset h
  rwa [List.mem_reverse] at this

theorem mem_pySliceTo {c : Nat} {l : List Nat} {k : Int} (h : c ∈ pySliceTo l k) :
    c ∈ l := by
  unfold pySliceTo at h
  split_ifs at h <;> exact List.mem_of_mem_take h

theorem replaceInvalidChar_avoids (t : Nat) :
    replaceInvalidChar t ≠ 47 ∧ replaceInvalidChar t ≠ 58 ∧
    replaceInvalidChar t ≠ 42 ∧ replaceInvalidChar t ≠ 63 ∧
    replaceInvalidChar t ≠ 34 ∧ replaceInvalidChar t ≠ 60 ∧
    replaceInvalidChar t ≠ 62 ∧ replaceInvalidChar t ≠ 124 := by
  unfold replaceInvalidChar
  split_ifs with h
  · refine ⟨?_, ?_, ?_, ?_, ?_, ?_, ?_, ?_⟩ <;> omega
  · push_neg at h
    exact ⟨h.1, h.2.1, h.2.2.1, h.2.2.2.1, h.2.2.2.2.1, h.2.2.2.2.2.1,
      h.2.2.2.2.2.2.1, h.2.2.2.2.2.2.2⟩

/-- C4 counterexample: the claim includes the backslash among the
characters replaced by an underscore, but a title consisting of one
backslash (code 92) passes through sanitize_filename unchanged. -/
theorem c4_counterexample :
    sanitize_filename [92] [46, 109, 112, 52] 240 = [92, 46, 109, 112, 52] ∧
    92 ∈ sanitize_filename [92] [46, 109, 112, 52] 240 := by
  decide

/-- C4 amended: sanitize_filename replaces each occurrence of the eight
characters slash, colon, asterisk, question mark, double quote, less-than,
greater-than and vertical bar with an underscore, so the returned name
apart from the caller-supplied extension contains none of these eight; the
backslash is not in the replaced set, because the raw-string character
class escapes the forward slash rather than listing a backslash. -/
theorem c4_sanitize_replaced_set (title ext : List Nat) :
    ∃ nameOnly, sanitize_filename title ext 240 = nameOnly ++ ext ∧
      ∀ c ∈ nameOnly, c ≠ 47 ∧ c ≠ 58 ∧ c ≠ 42 ∧ c ≠ 63 ∧ c ≠ 34 ∧ c ≠ 60 ∧
        c ≠ 62 ∧ c ≠ 124 := by
  have hmapped : ∀ c ∈ title.map replaceInvalidChar,
      c ≠ 47 ∧ c ≠ 58 ∧ c ≠ 42 ∧ c ≠ 63 ∧ c ≠ 34 ∧ c ≠ 60 ∧ c ≠ 62 ∧ c ≠ 124 := by
    intro c hc
    rw [List.mem_map] at hc
    obtain ⟨t, _, rfl⟩ := hc
    exact replaceInvalidChar_avoids t
  simp only [sanitize_filename, Nat.cast_ofNat]
  by_cases hcond : ((utf8Encode (title.map replaceInvalidChar)).length : Int) >
      (240 : Int) - ((utf8Encode ext).length : Int)
  · rw [if_pos hcond]
    refine ⟨_, rfl, ?_⟩
    intro c hc
    rcases List.mem_append.mp hc with hc' | hdots
    · by_cases hc128 : c < 128
      · have hbytes : c ∈ utf8Encode (title.map replaceInvalidChar) :=
          mem_pySliceTo (mem_stripContRight (ascii_mem_decodeIgnore hc128 hc'))
        exact hmapped c (ascii_mem_utf8Encode hc128 hbytes)
      · refine ⟨?_, ?_, ?_, ?_, ?_, ?_, ?_, ?_⟩ <;> omega
    · simp only [List.mem_cons, List.mem_singleton, List.not_mem_nil, or_false] at hdots
      rcases hdots with rfl | rfl | rfl <;>
        exact ⟨by omega, by omega, by omega, by omega, by omega, by omega, by omega,
          by omega⟩
  · rw [if_neg hcond]
    exact ⟨title.map replaceInvalidChar, rfl, hmapped⟩

/-- C5: with the default maxBytes of 240 and an extension short enough to
leave a positive name budget, the sanitized name's UTF-8 byte length is at
most 240 and the result ends with the extension; when the replaced title's
encoding exceeds the byte budget, the name is cut at a valid UTF-8
sequence boundary - the byte string of the front is a code-point-aligned
front of the title's encoding - at or before budget minus extension minus
three bytes, with the three-byte ellipsis appended before the extension. -/
theorem c5_sanitize_byte_budget (title ext : List Nat)
    (hv : ∀ c ∈ title, validScalar c)
    (hext : (utf8Encode ext).length + 4 ≤ 240) :
    (utf8Encode (sanitize_filename title ext 240)).length ≤ 240 ∧
    (∃ nm, sanitize_filename title ext 240 = nm ++ ext) ∧
    (((utf8Encode (title.map replaceInvalidChar)).length : Int) >
        (240 : Int) - ((utf8Encode ext).length : Int) →
      ∃ front tailBytes,
        sanitize_filename title ext 240 = front ++ [46, 46, 46] ++ ext ∧
        utf8Encode (title.map replaceInvalidChar) = utf8Encode front ++ tailBytes ∧
        (utf8Encode front).length + 3 + (utf8Encode ext).length ≤ 240) := by
  have hvm : ∀ c ∈ title.map replaceInvalidChar, validScalar c := by
    intro c hc
    rw [List.mem_map] at hc
    obtain ⟨t, ht, rfl⟩ := hc
    unfold replaceInvalidChar
    split_ifs
    · decide
    · exact hv t ht
  simp only [sanitize_filename, Nat.cast_ofNat]
  by_cases hcond : ((utf8Encode (title.map replaceInvalidChar)).length : Int) >
      (240 : Int) - ((utf8Encode ext).length : Int)
  · rw [if_pos hcond]
    have hslice : pySliceTo (utf8Encode (title.map replaceInvalidChar))
        ((240 : Int) - ((utf8Encode ext).length : Int) - 3) =
        (utf8Encode (title.map replaceInvalidChar)).take
          (240 - (utf8Encode ext).length - 3) := by
      unfold pySliceTo
      rw [if_pos (by omega)]
      congr 1
      omega
    obtain ⟨cs1, cs2, hsplit, hdec, hlen⟩ :=
      decode_take_spec (title.map replaceInvalidChar) hvm
        (240 - (utf8Encode ext).length - 3)
    rw [hslice, hdec]
    have hdots : (utf8Encode [46, 46, 46]).length = 3 := by decide
    refine ⟨?_, ⟨cs1 ++ [46, 46, 46], rfl⟩, fun _ => ?_⟩
    · rw [utf8Encode_append, utf8Encode_append, List.length_append,
        List.length_append, hdots]
      omega
    · refine ⟨cs1, utf8Encode cs2, by rw [List.append_assoc], ?_, by omega⟩
      rw [hsplit, utf8Encode_append]
  · rw [if_neg hcond]
    have hM : (utf8Encode (title.map replaceInvalidChar)).length +
        (utf8Encode ext).length ≤ 240 := by omega
    refine ⟨?_, ⟨title.map replaceInvalidChar, rfl⟩, fun h => absurd h hcond⟩
    rw [utf8Encode_append, List.length_append]
    exact hM

theorem c5_sanitize_byte_budget_witness :
    (utf8Encode (sanitize_filename [97, 233] [46, 109, 112, 52] 240)).length ≤ 240 ∧
    ∃ nm, sanitize_filename [97, 233] [46, 109, 112, 52] 240 =
      nm ++ [46, 109, 112, 52] :=
  ⟨(c5_sanitize_byte_budget [97, 233] [46, 109, 112, 52] (by decide) (by decide)).1,
   (c5_sanitize_byte_budget [97, 233] [46, 109, 112, 52] (by decide) (by decide)).2.1⟩

/-! ## Normalizer lemmas -/

theorem map_id_on {f : Nat → Nat} : ∀ (l : List Nat), (∀ c ∈ l, f c = c) →
    l.map f = l := by
  intro l h
  induction l with
  | nil => rfl
  | cons c rest ih =>
    rw [List.map_cons, h c (by simp), ih (fun x hx => h x (by simp [hx]))]

theorem flatMap_id_on {f : Nat → List Nat} : ∀ (l : List Nat),
    (∀ c ∈ l, f c = [c]) → l.flatMap f = l := by
  intro l h
  induction l with
  | nil => rfl
  | cons c rest ih =>
    rw [List.flatMap_cons, h c (by simp), ih (fun x hx => h x (by simp [hx]))]
    rfl

theorem dropWhile_eq_self_of_head (p : Nat → Bool) (l : List Nat)
    (h : ∀ x, l.head? = some x → p x = false) : l.dropWhile p = l := by
  cases l with
  | nil => rfl
  | cons c rest =>
    rw [List.dropWhile_cons, if_neg (by rw [h c rfl]; simp)]

theorem head?_mem {α : Type} {l : List α} {a : α} (h : l.head? = some a) : a ∈ l := by
  cases l with
  | nil => simp at h
  | cons c rest =>
    rw [List.head?_cons, Option.some.injEq] at h
    subst h
    simp

theorem keepChar_nonspace_lt (c : Nat) (hk : keepChar c = true)
    (hs : isSpaceChar c = false) : c < 384 := by
  simp only [keepChar, isWordChar, isSpaceChar, Bool.or_eq_true,
    decide_eq_true_eq, decide_eq_false_iff_not] at hk hs
  omega

theorem lowerChar_stable_bounded :
    ∀ c ∈ List.range 384, c ≠ 304 → keepChar c = true → isSpaceChar c = false →
      isSepChar c = false →
      lowerChar c = [(lowerChar c).headD 0] ∧ stableChar ((lowerChar c).headD 0) := by
  decide

theorem lowerChar_stable (c : Nat) (hk : keepChar c = true)
    (hs : isSpaceChar c = false) (hsep : isSepChar c = false) (h304 : c ≠ 304) :
    ∃ d, lowerChar c = [d] ∧ stableChar d :=
  ⟨(lowerChar c).headD 0,
    lowerChar_stable_bounded c
      (List.mem_range.mpr (keepChar_nonspace_lt c hk hs)) h304 hk hs hsep⟩

theorem joinWords_cons2 (w w2 : List Nat) (ws : List (List Nat)) :
    joinWords (w :: w2 :: ws) = w ++ 32 :: joinWords (w2 :: ws) := rfl

theorem joinWords_ne_nil : ∀ (ws : List (List Nat)), (∀ w ∈ ws, w ≠ []) →
    ws ≠ [] → joinWords ws ≠ [] := by
  intro ws hws hne
  cases ws with
  | nil => exact absurd rfl hne
  | cons w rest =>
    cases rest with
    | nil => exact hws w (by simp)
    | cons w2 rest2 =>
      rw [joinWords_cons2]
      intro hcontra
      rcases List.append_eq_nil.mp hcontra with ⟨_, h2⟩
      simp at h2

theorem mem_joinWords {c : Nat} : ∀ {ws : List (List Nat)},
    c ∈ joinWords ws → c = 32 ∨ ∃ w ∈ ws, c ∈ w := by
  intro ws
  induction ws with
  | nil => intro h; simp [joinWords] at h
  | cons w rest ih =>
    intro h
    cases rest with
    | nil => exact Or.inr ⟨w, by simp, h⟩
    | cons w2 rest2 =>
      rw [joinWords_cons2] at h
      rcases List.mem_append.mp h with h' | h'
      · exact Or.inr ⟨w, by simp, h'⟩
      · rcases List.mem_cons.mp h' with rfl | h''
        · exact Or.inl rfl
        · rcases ih h'' with h32 | ⟨w', hw', hc⟩
          · exact Or.inl h32
          · exact Or.inr ⟨w', by simp [hw'], hc⟩

theorem flatMap_joinWords (f : Nat → List Nat) (hf32 : f 32 = [32]) :
    ∀ (ws : List (List Nat)),
      (joinWords ws).flatMap f = joinWords (ws.map (fun w => w.flatMap f)) := by
  intro ws
  induction ws with
  | nil => rfl
  | cons w rest ih =>
    cases rest with
    | nil => rfl
    | cons w2 rest2 =>
      rw [joinWords_cons2, List.flatMap_append, List.flatMap_cons, hf32, ih]
      simp [List.map_cons, joinWords_cons2]

theorem head?_joinWords : ∀ (ws : List (List Nat)), (∀ w ∈ ws, w ≠ []) →
    ws ≠ [] → ∃ d w, w ∈ ws ∧ d ∈ w ∧ (joinWords ws).head? = some d := by
  intro ws hws hne
  cases ws with
  | nil => exact absurd rfl hne
  | cons w rest =>
    have hw : w ≠ [] := hws w (by simp)
    obtain ⟨c, w', rfl⟩ : ∃ c w', w = c :: w' := by
      cases w with
      | nil => exact absurd rfl hw
      | cons c w' => exact ⟨c, w', rfl⟩
    cases rest with
    | nil => exact ⟨c, c :: w', by simp, by simp, rfl⟩
    | cons w2 rest2 => exact ⟨c, c :: w', by simp, by simp, rfl⟩

theorem last_joinWords : ∀ (ws : List (List Nat)), (∀ w ∈ ws, w ≠ []) →
    ws ≠ [] → ∃ d w, w ∈ ws ∧ d ∈ w ∧ (joinWords ws).reverse.head? = some d := by
  intro ws
  induction ws with
  | nil => intro _ hne; exact absurd rfl hne
  | cons w rest ih =>
    intro hws _
    cases rest with
    | nil =>
      have hw : w ≠ [] := hws w (by simp)
      have hrev : w.reverse ≠ [] := by
        rw [ne_eq, List.reverse_eq_nil_iff]
        exact hw
      obtain ⟨d, t, hd⟩ : ∃ d t, w.reverse = d :: t := by
        cases hr : w.reverse with
        | nil => exact absurd hr hrev
        | cons d t => exact ⟨d, t, rfl⟩
      refine ⟨d, w, by simp, ?_, by rw [show joinWords [w] = w from rfl, hd]; rfl⟩
      rw [← List.mem_reverse, hd]
      simp
    | cons w2 rest2 =>
      obtain ⟨d, w', hw', hd, hhead⟩ := ih
        (fun x hx => hws x (by simp [hx])) (by simp)
      refine ⟨d, w', by simp [hw'], hd, ?_⟩
      rw [joinWords_cons2, List.reverse_append, List.reverse_cons]
      have hne2 : (joinWords (w2 :: rest2)).reverse ≠ [] := by
        rw [ne_eq, List.reverse_eq_nil_iff]
        exact joinWords_ne_nil (w2 :: rest2) (fun x hx => hws x (by simp [hx]))
          (by simp)
      cases hr : (joinWords (w2 :: rest2)).reverse with
      | nil => exact absurd hr hne2
      | cons e t =>
        rw [hr] at hhead
        simp only [List.head?_cons, Option.some.injEq] at hhead
        subst hhead
        simp

theorem stripEnds_joinWords (ws : List (List Nat))
    (hws : ∀ w ∈ ws, w ≠ [] ∧ ∀ c ∈ w, isSpaceChar c = false) :
    stripEnds (joinWords ws) = joinWords ws := by
  cases hcase : ws with
  | nil => rfl
  | cons w rest =>
    rw [← hcase]
    have hne : ws ≠ [] := by rw [hcase]; simp
    have hwne : ∀ x ∈ ws, x ≠ [] := fun x hx => (hws x hx).1
    obtain ⟨d1, w1, hw1, hd1, hhead⟩ := head?_joinWords ws hwne hne
    obtain ⟨d2, w2, hw2, hd2, hlast⟩ := last_joinWords ws hwne hne
    have h1 : (joinWords ws).dropWhile isSpaceChar = joinWords ws :=
      dropWhile_eq_self_of_head isSpaceChar (joinWords ws) (fun x hx => by
        rw [hhead] at hx
        injection hx with hx'
        subst hx'
        exact (hws w1 hw1).2 d1 hd1)
    have h2 : (joinWords ws).reverse.dropWhile isSpaceChar = (joinWords ws).reverse :=
      dropWhile_eq_self_of_head isSpaceChar (joinWords ws).reverse (fun x hx => by
        rw [hlast] at hx
        injection hx with hx'
        subst hx'
        exact (hws w2 hw2).2 d2 hd2)
    unfold stripEnds
    rw [h1, h2, List.reverse_reverse]

theorem splitWsGo_append_nonspace : ∀ (w : List Nat),
    (∀ c ∈ w, isSpaceChar c = false) → ∀ (t acc : List Nat),
    splitWsGo acc (w ++ t) = splitWsGo (w.reverse ++ acc) t := by
  intro w
  induction w with
  | nil => intro _ t acc; simp
  | cons c w' ih =>
    intro h t acc
    rw [List.cons_append]
    show splitWsGo acc (c :: (w' ++ t)) = _
    simp only [splitWsGo, h c (by simp), Bool.false_eq_true, if_false]
    rw [ih (fun x hx => h x (by simp [hx])) t (c :: acc)]
    congr 1
    simp

theorem splitWsGo_nil_eq (acc : List Nat) :
    splitWsGo acc [] = if acc = [] then [] else [acc.reverse] := rfl

theorem splitWs_joinWords : ∀ (ws : List (List Nat)),
    (∀ w ∈ ws, w ≠ [] ∧ ∀ c ∈ w, isSpaceChar c = false) →
    splitWs (joinWords ws) = ws := by
  intro ws
  induction ws with
  | nil => intro _; rfl
  | cons w rest ih =>
    intro h
    obtain ⟨hwne, hwns⟩ := h w (by simp)
    cases rest with
    | nil =>
      show splitWsGo [] (joinWords [w]) = [w]
      have happ := splitWsGo_append_nonspace w hwns [] []
      rw [List.append_nil] at happ
      rw [show joinWords [w] = w from rfl, happ, splitWsGo_nil_eq,
        if_neg (by simp [hwne])]
      simp
    | cons w2 rest2 =>
      show splitWsGo [] (joinWords (w :: w2 :: rest2)) = _
      rw [joinWords_cons2, splitWsGo_append_nonspace w hwns _ []]
      have h32 : isSpaceChar 32 = true := by decide
      show splitWsGo (w.reverse ++ []) (32 :: joinWords (w2 :: rest2)) = _
      simp only [splitWsGo, h32, if_true, List.append_nil]
      rw [if_neg (by simp [hwne]), List.reverse_reverse]
      exact congrArg (w :: ·) (ih (fun x hx => h x (by simp [hx])))

theorem splitWsGo_sound (P : Nat → Prop) : ∀ (l acc : List Nat),
    (∀ c ∈ acc, isSpaceChar c = false ∧ P c) → (∀ c ∈ l, P c) →
    ∀ w ∈ splitWsGo acc l, w ≠ [] ∧ ∀ c ∈ w, isSpaceChar c = false ∧ P c := by
  intro l
  induction l with
  | nil =>
    intro acc hacc _ w hw
    rw [splitWsGo_nil_eq] at hw
    split_ifs at hw with hc
    · simp at hw
    · rw [List.mem_singleton] at hw
      subst hw
      refine ⟨by simp [hc], fun c hc' => hacc c (by rwa [List.mem_reverse] at hc')⟩
  | cons a l ih =>
    intro acc hacc hl w hw
    by_cases ha : isSpaceChar a = true
    · simp only [splitWsGo, ha, if_true] at hw
      by_cases hac : acc = []
      · rw [if_pos hac] at hw
        exact ih [] (by simp) (fun c hc => hl c (by simp [hc])) w hw
      · rw [if_neg hac] at hw
        rcases List.mem_cons.mp hw with rfl | hw'
        · refine ⟨by simp [hac], fun c hc' => hacc c (by rwa [List.mem_reverse] at hc')⟩
        · exact ih [] (by simp) (fun c hc => hl c (by simp [hc])) w hw'
    · have ha' : isSpaceChar a = false := by
        revert ha
        cases isSpaceChar a <;> simp
      simp only [splitWsGo, ha', Bool.false_eq_true, if_false] at hw
      exact ih (a :: acc)
        (fun c hc => by
          rcases List.mem_cons.mp hc with rfl | hc'
          · exact ⟨ha', hl c (by simp)⟩
          · exact hacc c hc')
        (fun c hc => hl c (by simp [hc])) w hw

theorem splitSlashGo_no_slash : ∀ (l acc : List Nat), (∀ c ∈ l, c ≠ 47) →
    splitSlashGo acc l = [acc.reverse ++ l] := by
  intro l
  induction l with
  | nil => intro acc _; simp [splitSlashGo]
  | cons c rest ih =>
    intro acc h
    simp only [splitSlashGo, if_neg (h c (by simp))]
    rw [ih (c :: acc) (fun x hx => h x (by simp [hx]))]
    simp

theorem splitSlashGo_chars : ∀ (l acc : List Nat) (w : List Nat),
    w ∈ splitSlashGo acc l → ∀ c ∈ w, c ∈ acc ∨ c ∈ l := by
  intro l
  induction l with
  | nil =>
    intro acc w hw c hc
    simp only [splitSlashGo, List.mem_singleton] at hw
    subst hw
    exact Or.inl (by rwa [List.mem_reverse] at hc)
  | cons a rest ih =>
    intro acc w hw c hc
    by_cases ha : a = 47
    · simp only [splitSlashGo, if_pos ha] at hw
      rcases List.mem_cons.mp hw with rfl | hw'
      · exact Or.inl (by rwa [List.mem_reverse] at hc)
      · rcases ih [] w hw' c hc with h | h
        · simp at h
        · exact Or.inr (by simp [h])
    · simp only [splitSlashGo, if_neg ha] at hw
      rcases ih (a :: acc) w hw c hc with h | h
      · rcases List.mem_cons.mp h with rfl | h'
        · exact Or.inr (by simp)
        · exact Or.inl h'
      · exact Or.inr (by simp [h])

theorem pathName_id (s : List Nat) (h46 : 46 ∉ s) (h47 : 47 ∉ s) :
    pathName s = s := by
  unfold pathName
  rw [splitSlashGo_no_slash s [] (fun c hc => by rintro rfl; exact h47 hc)]
  rw [List.reverse_nil, List.nil_append]
  by_cases hs : s = []
  · subst hs
    rfl
  · have : s ≠ [46] := by
      rintro rfl
      exact h46 (by simp)
    rw [List.filter_cons, if_pos (by simp [hs, this]), List.filter_nil]
    rfl

theorem pathName_chars (s : List Nat) : ∀ c ∈ pathName s, c ∈ s := by
  intro c hc
  unfold pathName at hc
  cases hL : ((splitSlashGo [] s).filter
      (fun comp => decide (comp ≠ [] ∧ comp ≠ [46]))).getLast? with
  | none => rw [hL] at hc; simp at hc
  | some w =>
    rw [hL] at hc
    simp only [Option.getD_some] at hc
    have hw : w ∈ (splitSlashGo [] s).filter
        (fun comp => decide (comp ≠ [] ∧ comp ≠ [46])) := by
      rw [List.getLast?_eq_head?_reverse] at hL
      have hmem := head?_mem hL
      rwa [List.mem_reverse] at hmem
    have hw' := (List.mem_filter.mp hw).1
    rcases splitSlashGo_chars s [] w hw' c hc with h | h
    · simp at h
    · exact h

theorem pathStem_id (s : List Nat) (h46 : 46 ∉ s) (h47 : 47 ∉ s) :
    pathStem s = s := by
  simp only [pathStem]
  rw [pathName_id s h46 h47]
  rw [List.findIdx?_eq_none_iff.mpr (fun x hx => by
    rw [List.mem_reverse] at hx
    simp only [decide_eq_false_iff_not]
    rintro rfl
    exact h46 hx)]

theorem pathStem_chars (s : List Nat) : ∀ c ∈ pathStem s, c ∈ s := by
  intro c hc
  simp only [pathStem] at hc
  cases hI : (pathName s).reverse.findIdx? (fun c => decide (c = 46)) with
  | none =>
    rw [hI] at hc
    exact pathName_chars s c hc
  | some j =>
    rw [hI] at hc
    simp only [] at hc
    split_ifs at hc with hcond
    · exact pathName_chars s c (List.mem_of_mem_take hc)
    · exact pathName_chars s c hc

theorem tagMatch_none (l : List Nat) (h : 40 ∉ l) : tagMatch l = none := by
  have h40 : ∀ x ∈ l.dropWhile isSpaceChar, x ≠ 40 := fun x hx => by
    rintro rfl
    exact h ((List.dropWhile_sublist isSpaceChar).subset hx)
  unfold tagMatch
  cases hdw : l.dropWhile isSpaceChar with
  | nil => rfl
  | cons c0 l1 =>
    have hc0 : c0 ≠ 40 := h40 c0 (by rw [hdw]; simp)
    rcases l1 with _ | ⟨d1, _ | ⟨d2, _ | ⟨cc, _ | ⟨d3, _ | ⟨c5, rest⟩⟩⟩⟩⟩ <;>
      simp [hc0]

theorem tagMatch_some_chars (l rem : List Nat) (h : tagMatch l = some rem) :
    ∀ c ∈ rem, c ∈ l := by
  intro c hc
  unfold tagMatch at h
  cases hdw : l.dropWhile isSpaceChar with
  | nil => rw [hdw] at h; exact absurd h (by simp)
  | cons c0 l1 =>
    rw [hdw] at h
    rcases l1 with _ | ⟨d1, _ | ⟨d2, _ | ⟨cc, _ | ⟨d3, _ | ⟨c5, rest⟩⟩⟩⟩⟩
    · exact absurd h (by simp)
    · exact absurd h (by simp)
    · exact absurd h (by simp)
    · exact absurd h (by simp)
    · exact absurd h (by simp)
    · have h' : (if c0 = 40 ∧ isDigitChar d1 = true ∧ isDigitChar d2 = true ∧
          (cc = 99 ∨ cc = 67) ∧ isDigitChar d3 = true ∧ c5 = 41 then
          some (List.dropWhile isSpaceChar rest) else none) = some rem := h
      split_ifs at h' with hcond
      · rw [Option.some.injEq] at h'
        subst h'
        have h1 : c ∈ rest := (List.dropWhile_sublist isSpaceChar).subset hc
        have h2 : c ∈ l.dropWhile isSpaceChar := by
          rw [hdw]
          simp [h1]
        exact (List.dropWhile_sublist isSpaceChar).subset h2

theorem removeTagsGo_id : ∀ (fuel : Nat) (l : List Nat), 40 ∉ l →
    removeTagsGo fuel l = l := by
  intro fuel
  induction fuel with
  | zero => intro l _; rfl
  | succ fuel ih =>
    intro l h
    cases l with
    | nil => rfl
    | cons c rest =>
      simp only [removeTagsGo, tagMatch_none (c :: rest) h]
      rw [ih rest (fun hm => h (by simp [hm]))]

theorem removeTagsGo_chars : ∀ (fuel : Nat) (l : List Nat),
    ∀ c ∈ removeTagsGo fuel l, c ∈ l := by
  intro fuel
  induction fuel with
  | zero => intro l c hc; exact hc
  | succ fuel ih =>
    intro l c hc
    cases l with
    | nil =>
      have hnil : removeTagsGo (fuel + 1) ([] : List Nat) = [] := rfl
      rw [hnil] at hc
      simp at hc
    | cons a rest =>
      simp only [removeTagsGo] at hc
      cases htm : tagMatch (a :: rest) with
      | some rem =>
        rw [htm] at hc
        exact tagMatch_some_chars (a :: rest) rem htm c (ih rem c hc)
      | none =>
        rw [htm] at hc
        rcases List.mem_cons.mp hc with rfl | h'
        · simp
        · exact List.mem_cons_of_mem a (ih rest c h')

/-- One pass of normalize_title is the identity on a join of nonempty
words of stable characters - the shape every normalize_title output of a
U+0130-free input has. -/
theorem normalize_title_fixed (ws : List (List Nat))
    (h : ∀ w ∈ ws, w ≠ [] ∧ ∀ c ∈ w, stableChar c) :
    normalize_title (joinWords ws) = joinWords ws := by
  have hmem : ∀ c ∈ joinWords ws, c = 32 ∨ stableChar c := by
    intro c hc
    rcases mem_joinWords hc with h32 | ⟨w, hw, hcw⟩
    · exact Or.inl h32
    · exact Or.inr ((h w hw).2 c hcw)
  have h46 : 46 ∉ joinWords ws := by
    intro hc
    rcases hmem 46 hc with h' | hs
    · exact absurd h' (by decide)
    · exact absurd hs.1 (by decide)
  have h47 : 47 ∉ joinWords ws := by
    intro hc
    rcases hmem 47 hc with h' | hs
    · exact absurd h' (by decide)
    · exact absurd hs.1 (by decide)
  have h40 : 40 ∉ joinWords ws := by
    intro hc
    rcases hmem 40 hc with h' | hs
    · exact absurd h' (by decide)
    · exact absurd hs.1 (by decide)
  have hnosep : ∀ c ∈ joinWords ws, isSepChar c = false := by
    intro c hc
    rcases hmem c hc with rfl | hs
    · decide
    · exact hs.2.2.1
  have hkeep : ∀ c ∈ joinWords ws, keepChar c = true := by
    intro c hc
    rcases hmem c hc with rfl | hs
    · decide
    · exact hs.1
  have hlower : ∀ c ∈ joinWords ws, lowerChar c = [c] := by
    intro c hc
    rcases hmem c hc with rfl | hs
    · decide
    · exact hs.2.2.2
  have hws' : ∀ w ∈ ws, w ≠ [] ∧ ∀ c ∈ w, isSpaceChar c = false :=
    fun w hw => ⟨(h w hw).1, fun c hc => ((h w hw).2 c hc).2.1⟩
  have hdef : normalize_title (joinWords ws) =
      stripEnds (lowerStr (wsCollapse (((removeTags (pathStem (joinWords ws))).map
        (fun c => if isSepChar c then 32 else c)).filter keepChar))) := rfl
  rw [hdef, pathStem_id _ h46 h47,
    show removeTags (joinWords ws) = removeTagsGo (joinWords ws).length (joinWords ws)
      from rfl,
    removeTagsGo_id _ _ h40,
    map_id_on (joinWords ws) (fun c hc => by rw [hnosep c hc]; simp),
    List.filter_eq_self.mpr hkeep,
    show wsCollapse (joinWords ws) = joinWords (splitWs (joinWords ws)) from rfl,
    splitWs_joinWords ws hws',
    show lowerStr (joinWords ws) = (joinWords ws).flatMap lowerChar from rfl,
    flatMap_id_on (joinWords ws) hlower]
  exact stripEnds_joinWords ws hws'

/-- Every normalize_title output of an input avoiding U+0130 is a join of
nonempty words of stable characters. -/
theorem normalize_title_goodWords (x : List Nat) (hx : 304 ∉ x) :
    ∃ ws, (∀ w ∈ ws, w ≠ [] ∧ ∀ c ∈ w, stableChar c) ∧
      normalize_title x = joinWords ws := by
  have hdef : normalize_title x =
      stripEnds (lowerStr (wsCollapse (((removeTags (pathStem x)).map
        (fun c => if isSepChar c then 32 else c)).filter keepChar))) := rfl
  have hsub21 : ∀ c ∈ removeTags (pathStem x), c ∈ pathStem x :=
    fun c hc => removeTagsGo_chars (pathStem x).length (pathStem x) c hc
  have h304 : ∀ c ∈ ((removeTags (pathStem x)).map
      (fun c => if isSepChar c then 32 else c)).filter keepChar, c ≠ 304 := by
    intro c hc hc304
    subst hc304
    have hc3 := (List.mem_filter.mp hc).1
    rw [List.mem_map] at hc3
    obtain ⟨b, hb, hbeq⟩ := hc3
    by_cases hsepb : isSepChar b = true
    · rw [if_pos hsepb] at hbeq
      exact absurd hbeq (by decide)
    · rw [if_neg hsepb] at hbeq
      rw [hbeq] at hb
      exact hx (pathStem_chars x 304 (hsub21 304 hb))
  have hkeep4 : ∀ c ∈ ((removeTags (pathStem x)).map
      (fun c => if isSepChar c then 32 else c)).filter keepChar, keepChar c = true :=
    fun c hc => (List.mem_filter.mp hc).2
  have hsep4 : ∀ c ∈ ((removeTags (pathStem x)).map
      (fun c => if isSepChar c then 32 else c)).filter keepChar,
      isSepChar c = false := by
    intro c hc
    have hc3 := (List.mem_filter.mp hc).1
    rw [List.mem_map] at hc3
    obtain ⟨b, hb, hbeq⟩ := hc3
    by_cases hsepb : isSepChar b = true
    · rw [if_pos hsepb] at hbeq
      subst hbeq
      decide
    · rw [if_neg hsepb] at hbeq
      rw [← hbeq]
      revert hsepb
      cases isSepChar b <;> simp
  have hsound := splitWsGo_sound
    (fun c => keepChar c = true ∧ isSepChar c = false ∧ c ≠ 304)
    (((removeTags (pathStem x)).map
      (fun c => if isSepChar c then 32 else c)).filter keepChar) []
    (by simp)
    (fun c hc => ⟨hkeep4 c hc, hsep4 c hc, h304 c hc⟩)
  have hgood : ∀ w' ∈ (splitWs (((removeTags (pathStem x)).map
      (fun c => if isSepChar c then 32 else c)).filter keepChar)).map
        (fun w => w.flatMap lowerChar),
      w' ≠ [] ∧ ∀ c ∈ w', stableChar c := by
    intro w' hw'
    rw [List.mem_map] at hw'
    obtain ⟨w, hw, rfl⟩ := hw'
    obtain ⟨hwne, hwchars⟩ := hsound w hw
    constructor
    · obtain ⟨c, rest, rfl⟩ : ∃ c rest, w = c :: rest := by
        cases w with
        | nil => exact absurd rfl hwne
        | cons c rest => exact ⟨c, rest, rfl⟩
      obtain ⟨hns, hk, hsep, h3⟩ := hwchars c (by simp)
      obtain ⟨d, hd, _⟩ := lowerChar_stable c hk hns hsep h3
      rw [List.flatMap_cons, hd]
      simp
    · intro c' hc'
      rw [List.mem_flatMap] at hc'
      obtain ⟨c, hc, hcin⟩ := hc'
      obtain ⟨hns, hk, hsep, h3⟩ := hwchars c hc
      obtain ⟨d, hd, hdstable⟩ := lowerChar_stable c hk hns hsep h3
      rw [hd, List.mem_singleton] at hcin
      subst hcin
      exact hdstable
  refine ⟨_, hgood, ?_⟩
  rw [hdef,
    show wsCollapse (((removeTags (pathStem x)).map
      (fun c => if isSepChar c then 32 else c)).filter keepChar) =
      joinWords (splitWs (((removeTags (pathStem x)).map
        (fun c => if isSepChar c then 32 else c)).filter keepChar)) from rfl,
    show ∀ l, lowerStr l = l.flatMap lowerChar from fun _ => rfl,
    flatMap_joinWords lowerChar (by decide)]
  exact stripEnds_joinWords _
    (fun w hw => ⟨(hgood w hw).1, fun c hc => ((hgood w hw).2 c hc).2.1⟩)

